import Mathlib

/-!
# Verification of the Markdown heading linkifier (`src/link-gen.rs`)

The program reads a Markdown document, detects ATX heading lines with the
regex `^(#{1,6})\s+(.+?)$`, appends a ` [chain](#anchor-)` link to each
heading, leaves other lines unchanged, and rejoins all lines with `'\n'`.

Shallow embedding choices:
* Rust strings are modeled as `List Char` (`RStr`).
* Character classification (`char::is_alphanumeric`, `char::is_whitespace`,
  lowercasing) is modeled by the corresponding ASCII-accurate Lean `Char`
  predicates; the Rust originals are Unicode-aware, and the model agrees with
  them on the ASCII range, which is what the repository's documents use.
* The specific regex `^(#{1,6})\s+(.+?)$` applied by `Regex::captures` to a
  single line is embedded as the function `headingCaptures`, derived from
  leftmost-first (Perl-style) matching semantics; the derivation is documented
  on the definition.
-/

namespace LinkGen

/-- Rust strings are modeled as lists of characters. -/
abbrev RStr := List Char

/-- Model of Rust `char::is_alphanumeric` (ASCII-accurate: letters and
digits; the Rust original additionally accepts non-ASCII Unicode
letters/digits). -/
def rustIsAlphanumeric (c : Char) : Bool := c.isAlphanum

/-- Model of Rust `char::is_whitespace` (ASCII-accurate: space, tab, CR, LF;
the Rust original additionally accepts other Unicode whitespace). This is
also the model of the regex class `\s`. -/
def rustIsWhitespace (c : Char) : Bool := c.isWhitespace

/-- Model of Rust `str::to_lowercase`, character by character
(ASCII-accurate: maps `A`–`Z` to `a`–`z`). -/
def rustToLower (c : Char) : Char := c.toLower

/-- Helper for `splitSep`: prepend a character to the first piece of a split
result. -/
def consHead (c : Char) : List RStr → List RStr
  | [] => [[c]]
  | s :: rest => (c :: s) :: rest

/-- Model of Rust `str::split(sep)` for a single-character separator: the
result is always nonempty and keeps empty pieces (`split` on `""` yields
`[""]`, on `"-"` yields `["", ""]`). -/
def splitSep (sep : Char) : RStr → List RStr
  | [] => [[]]
  | c :: cs => if c = sep then [] :: splitSep sep cs else consHead c (splitSep sep cs)

/-- Model of Rust `join(sep)` on a vector of strings, for a single-character
separator: pieces are concatenated with exactly one `sep` between consecutive
pieces. -/
def joinSep (sep : Char) : List RStr → RStr
  | [] => []
  | [s] => s
  | s :: t :: rest => s ++ sep :: joinSep sep (t :: rest)

/-- The per-character mapping inside `generate_anchor`
(`src/link-gen.rs` lines 60–72): alphanumeric characters are kept,
whitespace becomes `'-'`, `':'` and `'.'` become the sentinel `'\x00'`
(removed by a later filter, as in the source), every other character
becomes `'-'`. -/
def anchorMapChar (c : Char) : Char :=
  if rustIsAlphanumeric c then c
  else if rustIsWhitespace c then '-'
  else if c = ':' ∨ c = '.' then '\x00'
  else '-'

/-- Model of `generate_anchor` (`src/link-gen.rs` lines 50–79): lowercase the
heading text, map each character through `anchorMapChar`, filter out the
`'\x00'` sentinels, split the result on `'-'`, discard empty pieces, and
rejoin with single hyphens. -/
def generate_anchor (heading_text : RStr) : RStr :=
  let mapped := ((heading_text.map rustToLower).map anchorMapChar).filter
    (fun c => decide (c ≠ '\x00'))
  joinSep '-' ((splitSep '-' mapped).filter (fun s => decide (s ≠ [])))

/-- The regex's literal `#` test: does a character equal `'#'`? -/
def isHash (c : Char) : Bool := decide (c = '#')

/-- Embedding of `Regex::new(r"^(#{1,6})\s+(.+?)$").captures(line)`
(`src/link-gen.rs` line 28), derived from leftmost-first matching:

* `^` anchors at the start; `(#{1,6})` is greedy, but since the character
  after the consumed hashes must satisfy `\s` (and `#` does not), the only
  candidate is the full leading run of `#`, which must have length 1–6.
  A run of 7 or more hashes can never match.
* `\s+` is greedy: it first consumes the maximal whitespace run after the
  hashes (it must be nonempty).
* `(.+?)$` then needs at least one character and, being anchored at
  end-of-haystack (Rust's `$` without multi-line mode), must consume the whole
  remainder, which therefore must be nonempty and free of `'\n'`
  (`.` does not match `'\n'`).
* If the remainder after the maximal whitespace run is empty, the engine
  backtracks `\s+` by one character, so the text capture becomes the final
  whitespace character of the line — provided the whitespace run has length
  at least 2 and that final character is not `'\n'`.

On a match the result is `some (hash run, text capture)`. -/
def headingCaptures (line : RStr) : Option (RStr × RStr) :=
  let hashes := line.takeWhile isHash
  let k := hashes.length
  if 1 ≤ k ∧ k ≤ 6 then
    let afterHash := line.dropWhile isHash
    let ws := afterHash.takeWhile rustIsWhitespace
    let rest := afterHash.dropWhile rustIsWhitespace
    if ws = [] then none
    else if rest = [] then
      match ws.getLast? with
      | some c => if 2 ≤ ws.length ∧ ¬ c = '\n' then some (hashes, [c]) else none
      | none => none
    else if '\n' ∈ rest then none
    else some (hashes, rest)
  else none

/-- The body of the `map` closure in `process_markdown_headings`
(`src/link-gen.rs` lines 32–45): a heading line is rewritten to
`format!("{} {} [chain](#{}-)", hashes, heading_text, anchor)`, any other
line is returned unchanged. -/
def processLine (line : RStr) : RStr :=
  match headingCaptures line with
  | some (hashes, heading_text) =>
    hashes ++ ' ' :: (heading_text ++ " [chain](#".toList
      ++ generate_anchor heading_text ++ "-)".toList)
  | none => line

/-- Strip one trailing `'\r'`, as Rust's `str::lines` does to every line that
was terminated by `'\n'`. -/
def stripCR (l : RStr) : RStr := if l.getLast? = some '\r' then l.dropLast else l

/-- Turn the pieces of a `'\n'` split into the lines Rust's `str::lines`
yields: every piece that was followed by a `'\n'` (i.e. every piece but the
last) has one trailing `'\r'` stripped; the final piece is dropped when empty
(a trailing line terminator produces no extra empty line) and is kept
verbatim otherwise (a bare final `'\r'` is NOT stripped, matching the
standard library's `lines` implementation). -/
def rustLinesAux : List RStr → List RStr
  | [] => []
  | [s] => if s = [] then [] else [s]
  | s :: t :: rest => stripCR s :: rustLinesAux (t :: rest)

/-- Model of Rust `str::lines`. -/
def rustLines (s : RStr) : List RStr := rustLinesAux (splitSep '\n' s)

/-- Model of `process_markdown_headings` (`src/link-gen.rs` lines 25–48):
split the document into lines, rewrite each line with `processLine`, and
rejoin with a single `'\n'` between consecutive lines. -/
def process_markdown_headings (content : RStr) : RStr :=
  joinSep '\n' ((rustLines content).map processLine)

/-- The spec's wording of the Variant A slug policy, written independently of
the source for the refinement comparison of claim C2: lowercase the text; for
each character keep it if alphanumeric, turn whitespace into a hyphen, drop
`':'` and `'.'` entirely, and replace every other character with a hyphen;
then split on `'-'`, discard empty segments, and rejoin with single
hyphens. -/
def variantASlug (t : RStr) : RStr :=
  let mapped := (t.map rustToLower).filterMap (fun c =>
    if rustIsAlphanumeric c then some c
    else if rustIsWhitespace c then some '-'
    else if c = ':' ∨ c = '.' then none
    else some '-')
  joinSep '-' ((splitSep '-' mapped).filter (fun s => decide (s ≠ [])))

/-- `noDoubleHyphen l = true` iff `l` has no two consecutive `'-'`
characters. -/
def noDoubleHyphen : RStr → Bool
  | [] => true
  | [_] => true
  | a :: b :: t => !(a = '-' && b = '-') && noDoubleHyphen (b :: t)

/-! ## Helper lemmas about `splitSep` and `joinSep` -/

theorem consHead_cons (c : Char) (s : RStr) (rest : List RStr) :
    consHead c (s :: rest) = (c :: s) :: rest := rfl

theorem splitSep_ne_nil (sep : Char) (l : RStr) : splitSep sep l ≠ [] := by
  cases l with
  | nil => simp [splitSep]
  | cons c cs =>
    simp only [splitSep]
    split
    · simp
    · cases h : splitSep sep cs with
      | nil => simp [consHead]
      | cons s rest => simp [consHead]

theorem not_mem_of_mem_splitSep {sep : Char} {l seg : RStr}
    (h : seg ∈ splitSep sep l) : sep ∉ seg := by
  induction l generalizing seg with
  | nil =>
    simp only [splitSep, List.mem_singleton] at h
    subst h; simp
  | cons c cs ih =>
    simp only [splitSep] at h
    by_cases hc : c = sep
    · rw [if_pos hc] at h
      rcases List.mem_cons.mp h with h1 | h1
      · subst h1; simp
      · exact ih h1
    · rw [if_neg hc] at h
      cases hs : splitSep sep cs with
      | nil => exact absurd hs (splitSep_ne_nil sep cs)
      | cons s rest =>
        rw [hs, consHead_cons] at h
        rcases List.mem_cons.mp h with h1 | h1
        · subst h1
          intro hmem
          rcases List.mem_cons.mp hmem with h2 | h2
          · exact hc h2.symm
          · exact ih (hs ▸ List.mem_cons_self s rest) h2
        · exact ih (hs ▸ List.mem_cons_of_mem s h1)

theorem mem_of_mem_splitSep {sep x : Char} {l seg : RStr}
    (hx : x ∈ seg) (h : seg ∈ splitSep sep l) : x ∈ l := by
  induction l generalizing seg with
  | nil =>
    simp only [splitSep, List.mem_singleton] at h
    subst h; simp at hx
  | cons c cs ih =>
    simp only [splitSep] at h
    by_cases hc : c = sep
    · rw [if_pos hc] at h
      rcases List.mem_cons.mp h with h1 | h1
      · subst h1; simp at hx
      · exact List.mem_cons_of_mem _ (ih hx h1)
    · rw [if_neg hc] at h
      cases hs : splitSep sep cs with
      | nil => exact absurd hs (splitSep_ne_nil sep cs)
      | cons s rest =>
        rw [hs, consHead_cons] at h
        rcases List.mem_cons.mp h with h1 | h1
        · subst h1
          rcases List.mem_cons.mp hx with h2 | h2
          · exact h2 ▸ List.mem_cons_self c cs
          · exact List.mem_cons_of_mem _ (ih h2 (hs ▸ List.mem_cons_self s rest))
        · exact List.mem_cons_of_mem _ (ih hx (hs ▸ List.mem_cons_of_mem s h1))

theorem splitSep_append_sep (sep : Char) (l : RStr) :
    splitSep sep (l ++ [sep]) = splitSep sep l ++ [[]] := by
  induction l with
  | nil => simp [splitSep]
  | cons c cs ih =>
    rw [List.cons_append]
    by_cases hc : c = sep
    · simp only [splitSep, if_pos hc, ih, List.cons_append]
    · simp only [splitSep, if_neg hc, ih]
      cases hs : splitSep sep cs with
      | nil => exact absurd hs (splitSep_ne_nil sep cs)
      | cons s rest => simp [hs, consHead_cons, List.cons_append]

theorem splitSep_append_single {sep x : Char} (hx : ¬ x = sep) (l : RStr) :
    ∃ I last0, splitSep sep l = I ++ [last0] ∧
      splitSep sep (l ++ [x]) = I ++ [last0 ++ [x]] := by
  induction l with
  | nil =>
    refine ⟨[], [], by simp [splitSep], ?_⟩
    simp [splitSep, if_neg hx, consHead]
  | cons c cs ih =>
    obtain ⟨I, last0, h1, h2⟩ := ih
    by_cases hc : c = sep
    · exact ⟨[] :: I, last0,
        by simp [splitSep, if_pos hc, h1],
        by simp [splitSep, if_neg hx, if_pos hc, h2]⟩
    · cases I with
      | nil =>
        refine ⟨[], c :: last0, ?_, ?_⟩
        · simp [splitSep, if_neg hc, h1, consHead]
        · simp [splitSep, if_neg hc, h2, consHead]
      | cons i0 I' =>
        refine ⟨(c :: i0) :: I', last0, ?_, ?_⟩
        · simp [splitSep, if_neg hc, h1, consHead]
        · simp [splitSep, if_neg hc, h2, consHead]

theorem splitSep_of_not_mem {sep : Char} {l : RStr} (h : sep ∉ l) :
    splitSep sep l = [l] := by
  induction l with
  | nil => rfl
  | cons c cs ih =>
    have hc : ¬ c = sep := by rintro rfl; exact h (List.mem_cons_self _ _)
    have ih' := ih (fun hm => h (List.mem_cons_of_mem _ hm))
    simp [splitSep, if_neg hc, ih', consHead]

theorem splitSep_append_cons {sep : Char} {a : RStr} (ha : sep ∉ a) (b : RStr) :
    splitSep sep (a ++ sep :: b) = a :: splitSep sep b := by
  induction a with
  | nil => simp [splitSep]
  | cons c cs ih =>
    have hc : ¬ c = sep := by rintro rfl; exact ha (List.mem_cons_self _ _)
    have ih' := ih (fun hm => ha (List.mem_cons_of_mem _ hm))
    cases hs : splitSep sep (cs ++ sep :: b) with
    | nil => exact absurd hs (splitSep_ne_nil sep _)
    | cons s rest =>
      rw [hs] at ih'
      simp [splitSep, if_neg hc, hs, consHead_cons, ih']

theorem joinSep_cons_cons (sep : Char) (s t : RStr) (rest : List RStr) :
    joinSep sep (s :: t :: rest) = s ++ sep :: joinSep sep (t :: rest) := rfl

theorem joinSep_cons_ne_nil (sep : Char) (s : RStr) (rest : List RStr) (hs : s ≠ []) :
    joinSep sep (s :: rest) ≠ [] := by
  cases rest with
  | nil => simpa [joinSep] using hs
  | cons t r => simp [joinSep_cons_cons]

theorem mem_joinSep {sep x : Char} {L : List RStr} (h : x ∈ joinSep sep L) :
    x = sep ∨ ∃ s ∈ L, x ∈ s := by
  induction L with
  | nil => simp [joinSep] at h
  | cons s rest ih =>
    cases rest with
    | nil => exact Or.inr ⟨s, by simp, by simpa [joinSep] using h⟩
    | cons t r =>
      rw [joinSep_cons_cons] at h
      rcases List.mem_append.mp h with h1 | h1
      · exact Or.inr ⟨s, by simp, h1⟩
      · rcases List.mem_cons.mp h1 with h2 | h2
        · exact Or.inl h2
        · rcases ih h2 with h3 | ⟨u, hu, hx⟩
          · exact Or.inl h3
          · exact Or.inr ⟨u, List.mem_cons_of_mem _ hu, hx⟩

/-! ## Helper lemmas about `noDoubleHyphen` -/

theorem noDoubleHyphen_cons_of_ne {x : Char} (hx : x ≠ '-') (l : RStr) :
    noDoubleHyphen (x :: l) = noDoubleHyphen l := by
  cases l with
  | nil => simp [noDoubleHyphen]
  | cons b t => simp [noDoubleHyphen, hx]

theorem noDoubleHyphen_of_not_mem {l : RStr} (h : '-' ∉ l) :
    noDoubleHyphen l = true := by
  induction l with
  | nil => rfl
  | cons x t ih =>
    have hx : x ≠ '-' := by rintro rfl; exact h (List.mem_cons_self _ _)
    rw [noDoubleHyphen_cons_of_ne hx]
    exact ih (fun hm => h (List.mem_cons_of_mem _ hm))

theorem noDoubleHyphen_append {a b : RStr} (ha : '-' ∉ a)
    (hb : noDoubleHyphen b = true) : noDoubleHyphen (a ++ b) = true := by
  induction a with
  | nil => simpa using hb
  | cons x t ih =>
    have hx : x ≠ '-' := by rintro rfl; exact ha (List.mem_cons_self _ _)
    rw [List.cons_append, noDoubleHyphen_cons_of_ne hx]
    exact ih (fun hm => ha (List.mem_cons_of_mem _ hm))

theorem joinSep_hyphen_shape :
    ∀ L : List RStr, (∀ s ∈ L, s ≠ [] ∧ '-' ∉ s) →
      (joinSep '-' L).head? ≠ some '-' ∧ (joinSep '-' L).getLast? ≠ some '-' ∧
        noDoubleHyphen (joinSep '-' L) = true
  | [], _ => by simp [joinSep, noDoubleHyphen]
  | [s], h => by
    obtain ⟨hne, hmem⟩ := h s (List.mem_singleton.mpr rfl)
    refine ⟨?_, ?_, by simpa [joinSep] using noDoubleHyphen_of_not_mem hmem⟩
    · intro hh
      exact hmem (List.mem_of_mem_head? (show '-' ∈ (joinSep '-' [s]).head? from hh ▸ rfl))
    · intro hh
      exact hmem (List.mem_of_mem_getLast? (show '-' ∈ (joinSep '-' [s]).getLast? from hh ▸ rfl))
  | s :: t :: rest, h => by
    obtain ⟨hsne, hsmem⟩ := h s (List.mem_cons_self s _)
    obtain ⟨ihh, ihl, ihd⟩ :=
      joinSep_hyphen_shape (t :: rest) (fun u hu => h u (List.mem_cons_of_mem _ hu))
    have hJne : joinSep '-' (t :: rest) ≠ [] :=
      joinSep_cons_ne_nil '-' t rest (h t (List.mem_cons_of_mem _ (List.mem_cons_self t rest))).1
    rw [joinSep_cons_cons]
    refine ⟨?_, ?_, ?_⟩
    · rw [List.head?_append_of_ne_nil _ hsne]
      intro hh
      exact hsmem (List.mem_of_mem_head? (show '-' ∈ s.head? from hh ▸ rfl))
    · rw [List.getLast?_append_of_ne_nil _ (List.cons_ne_nil '-' _),
        show ('-' :: joinSep '-' (t :: rest)) = ['-'] ++ joinSep '-' (t :: rest) from rfl,
        List.getLast?_append_of_ne_nil _ hJne]
      exact ihl
    · apply noDoubleHyphen_append hsmem
      cases hJ : joinSep '-' (t :: rest) with
      | nil => exact absurd hJ hJne
      | cons j js =>
        have hj : j ≠ '-' := by
          intro hj0
          apply ihh
          rw [hJ, hj0]
          rfl
        rw [hJ] at ihd
        simpa [noDoubleHyphen, hj] using ihd

/-! ## Helper lemmas about `takeWhile`, `dropWhile`, `stripCR`, `rustLinesAux` -/

theorem isHash_eq {c : Char} (h : isHash c = true) : c = '#' := by
  simpa [isHash] using h

theorem takeWhile_append_of_all {p : Char → Bool} {a : RStr} (b : RStr)
    (h : ∀ c ∈ a, p c = true) : (a ++ b).takeWhile p = a ++ b.takeWhile p := by
  induction a with
  | nil => simp
  | cons c cs ih =>
    rw [List.cons_append, List.takeWhile_cons_of_pos (h c (List.mem_cons_self _ _)),
      ih (fun d hd => h d (List.mem_cons_of_mem _ hd)), List.cons_append]

theorem dropWhile_append_of_all {p : Char → Bool} {a : RStr} (b : RStr)
    (h : ∀ c ∈ a, p c = true) : (a ++ b).dropWhile p = b.dropWhile p := by
  induction a with
  | nil => simp
  | cons c cs ih =>
    rw [List.cons_append, List.dropWhile_cons_of_pos (h c (List.mem_cons_self _ _)),
      ih (fun d hd => h d (List.mem_cons_of_mem _ hd))]

theorem takeWhile_eq_self_of_all {p : Char → Bool} {a : RStr}
    (h : ∀ c ∈ a, p c = true) : a.takeWhile p = a := by
  induction a with
  | nil => rfl
  | cons c cs ih =>
    rw [List.takeWhile_cons_of_pos (h c (List.mem_cons_self _ _)),
      ih (fun d hd => h d (List.mem_cons_of_mem _ hd))]

theorem dropWhile_eq_nil_of_all {p : Char → Bool} {a : RStr}
    (h : ∀ c ∈ a, p c = true) : a.dropWhile p = [] := by
  induction a with
  | nil => rfl
  | cons c cs ih =>
    rw [List.dropWhile_cons_of_pos (h c (List.mem_cons_self _ _)),
      ih (fun d hd => h d (List.mem_cons_of_mem _ hd))]

theorem stripCR_of_getLast_ne {l : RStr} (h : l.getLast? ≠ some '\r') :
    stripCR l = l := if_neg h

theorem stripCR_concat_cr (l : RStr) : stripCR (l ++ ['\r']) = l := by
  rw [stripCR, if_pos (List.getLast?_concat l), List.dropLast_concat]

theorem rustLinesAux_append_nil (S : List RStr) :
    rustLinesAux (S ++ [[]]) = S.map stripCR := by
  induction S with
  | nil => simp [rustLinesAux]
  | cons s S' ih =>
    cases S' with
    | nil => simp [rustLinesAux, stripCR]
    | cons t R =>
      simp only [List.cons_append] at ih ⊢
      rw [rustLinesAux, ih]
      simp

theorem rustLinesAux_of_getLast {S : List RStr} {l : RStr}
    (h : S.getLast? = some l) (hne : l ≠ []) (hcr : stripCR l = l) :
    rustLinesAux S = S.map stripCR := by
  induction S with
  | nil => simp at h
  | cons s S' ih =>
    cases S' with
    | nil =>
      simp only [List.getLast?_singleton, Option.some.injEq] at h
      subst h
      simp [rustLinesAux, hne, hcr]
    | cons t R =>
      rw [rustLinesAux, ih (by simpa using h)]
      simp

theorem rustLines_ne_nil {v : RStr} (hv : v ≠ []) : rustLines v ≠ [] := by
  cases v with
  | nil => exact absurd rfl hv
  | cons c v' =>
    rw [rustLines]
    simp only [splitSep]
    by_cases hc : c = '\n'
    · rw [if_pos hc]
      cases hs : splitSep '\n' v' with
      | nil => exact absurd hs (splitSep_ne_nil '\n' v')
      | cons s rest => simp [rustLinesAux]
    · rw [if_neg hc]
      cases hs : splitSep '\n' v' with
      | nil => exact absurd hs (splitSep_ne_nil '\n' v')
      | cons s rest =>
        rw [consHead_cons]
        cases rest with
        | nil => simp [rustLinesAux]
        | cons t R => simp [rustLinesAux]

/-! ## Helper lemmas about `generate_anchor` -/

theorem filter_sentinel_eq_filterMap {f : Char → Char} {g : Char → Option Char}
    {x0 : Char} (hfg : ∀ c, (if f c = x0 then none else some (f c)) = g c) :
    ∀ l : RStr, (l.map f).filter (fun c => decide (c ≠ x0)) = l.filterMap g
  | [] => rfl
  | c :: cs => by
    rw [List.map_cons, List.filter_cons, List.filterMap_cons, ← hfg c,
      filter_sentinel_eq_filterMap hfg cs]
    by_cases h : f c = x0
    · rw [if_pos h, if_neg (by simp [h])]
    · rw [if_neg h, if_pos (by simp [h])]

theorem anchorMapChar_sentinel (c : Char) :
    (if anchorMapChar c = '\x00' then none else some (anchorMapChar c)) =
      (if rustIsAlphanumeric c then some c
       else if rustIsWhitespace c then some '-'
       else if c = ':' ∨ c = '.' then none
       else some '-') := by
  by_cases h1 : rustIsAlphanumeric c
  · have hc0 : ¬ c = '\x00' := by
      intro h
      rw [h] at h1
      exact absurd h1 (by decide)
    simp [anchorMapChar, h1, hc0]
  · by_cases h2 : rustIsWhitespace c
    · simp [anchorMapChar, h1, h2]
    · by_cases h3 : c = ':' ∨ c = '.'
      · simp [anchorMapChar, h1, h2, h3]
      · simp [anchorMapChar, h1, h2, h3]

theorem anchorFilter_eq_filterMap (l : RStr) :
    (l.map anchorMapChar).filter (fun c => decide (c ≠ '\x00')) =
      l.filterMap (fun c =>
        if rustIsAlphanumeric c then some c
        else if rustIsWhitespace c then some '-'
        else if c = ':' ∨ c = '.' then none
        else some '-') :=
  filter_sentinel_eq_filterMap anchorMapChar_sentinel l

theorem anchorMapChar_cases (c : Char) :
    anchorMapChar c = '\x00' ∨ rustIsAlphanumeric (anchorMapChar c) = true ∨
      anchorMapChar c = '-' := by
  unfold anchorMapChar
  by_cases h1 : rustIsAlphanumeric c
  · simp [h1]
  · by_cases h2 : rustIsWhitespace c
    · simp [h1, h2]
    · by_cases h3 : c = ':' ∨ c = '.'
      · simp [h1, h2, h3]
      · simp [h1, h2, h3]

theorem generate_anchor_char_mem {t : RStr} {c : Char} (hc : c ∈ generate_anchor t) :
    rustIsAlphanumeric c = true ∨ c = '-' := by
  simp only [generate_anchor] at hc
  rcases mem_joinSep hc with h | ⟨s, hs, hcs⟩
  · exact Or.inr h
  · rw [List.mem_filter] at hs
    have hcm := mem_of_mem_splitSep hcs hs.1
    rw [List.mem_filter] at hcm
    obtain ⟨hcmap, hc0⟩ := hcm
    have hc0' : c ≠ '\x00' := by simpa using hc0
    obtain ⟨d, _, hd⟩ := List.mem_map.mp hcmap
    rcases anchorMapChar_cases d with h | h | h
    · exact absurd (hd ▸ h) hc0'
    · exact Or.inl (hd ▸ h)
    · exact Or.inr (hd ▸ h)

/-! ## Claim theorems -/

/-- C1: for every input line recognized as a heading, the output line equals
the captured run of `#` characters, then a single space, then the captured
heading text, then the suffix `" [chain](#"` followed by the generated
anchor, a literal hyphen, and `")"`. -/
theorem c1_heading_line_format (line hashes heading_text : RStr)
    (h : headingCaptures line = some (hashes, heading_text)) :
    processLine line =
      hashes ++ ' ' :: (heading_text ++ " [chain](#".toList
        ++ generate_anchor heading_text ++ "-)".toList) := by
  simp [processLine, h]

theorem c1_witness :
    processLine "# Hello World".toList =
      "#".toList ++ ' ' :: ("Hello World".toList ++ " [chain](#".toList
        ++ generate_anchor "Hello World".toList ++ "-)".toList) :=
  c1_heading_line_format _ _ _ (by decide)

/-- C2: `generate_anchor` implements exactly the spec's Variant A slug policy
(`variantASlug`), and the returned slug has no leading hyphen, no trailing
hyphen, and no two consecutive hyphens. -/
theorem c2_anchor_variantA_and_hyphen_shape (t : RStr) :
    generate_anchor t = variantASlug t ∧
      (generate_anchor t).head? ≠ some '-' ∧
      (generate_anchor t).getLast? ≠ some '-' ∧
      noDoubleHyphen (generate_anchor t) = true := by
  have heq : generate_anchor t = variantASlug t := by
    simp only [generate_anchor, variantASlug]
    rw [anchorFilter_eq_filterMap]
  have hL : ∀ s ∈ (splitSep '-' (((t.map rustToLower).map anchorMapChar).filter
      (fun c => decide (c ≠ '\x00')))).filter (fun s => decide (s ≠ [])),
      s ≠ [] ∧ '-' ∉ s := by
    intro s hs
    rw [List.mem_filter] at hs
    exact ⟨by simpa using hs.2, not_mem_of_mem_splitSep hs.1⟩
  have hshape := joinSep_hyphen_shape _ hL
  exact ⟨heq, hshape.1, hshape.2.1, hshape.2.2⟩

/-- C3: every input line that the heading detector rejects is emitted
unchanged, character for character; the empty line is such a line. -/
theorem c3_non_heading_unchanged (line : RStr)
    (h : headingCaptures line = none) : processLine line = line := by
  simp [processLine, h]

theorem c3_witness :
    processLine "Not a heading".toList = "Not a heading".toList ∧
      processLine [] = ([] : RStr) :=
  ⟨c3_non_heading_unchanged _ (by decide), c3_non_heading_unchanged _ (by decide)⟩

/-- C5: an input line beginning with 7 or more `#` characters is not treated
as a heading and is emitted unchanged. -/
theorem c5_too_many_hashes_unchanged (line : RStr)
    (h : 7 ≤ (line.takeWhile isHash).length) :
    processLine line = line := by
  have hcap : headingCaptures line = none := by
    simp only [headingCaptures]
    rw [if_neg (by omega)]
  simp [processLine, hcap]

theorem c5_witness :
    processLine "####### Too many hashes".toList =
      "####### Too many hashes".toList :=
  c5_too_many_hashes_unchanged _ (by decide)

/-- C6: the transform is not idempotent: there is a document (one containing
a heading line) on which applying `process_markdown_headings` twice differs
from applying it once, because the linkified heading matches again. -/
theorem c6_not_idempotent :
    ∃ content : RStr,
      process_markdown_headings (process_markdown_headings content) ≠
        process_markdown_headings content :=
  ⟨"# Hello World".toList, by decide⟩

/-- C9: `generate_anchor` is a total function: for every input it returns a
(possibly empty) slug whose characters are all alphanumeric or hyphens;
punctuation-only and whitespace-only inputs yield the empty slug. -/
theorem c9_anchor_total_safe :
    (∀ (t : RStr), ∀ c ∈ generate_anchor t,
        rustIsAlphanumeric c = true ∨ c = '-') ∧
      generate_anchor (':' :: '.' :: []) = [] ∧
      generate_anchor (' ' :: '\t' :: []) = [] :=
  ⟨fun _ _ hc => generate_anchor_char_mem hc, by decide, by decide⟩

theorem c9_witness :
    rustIsAlphanumeric 'h' = true ∨ 'h' = '-' :=
  c9_anchor_total_safe.1 ['H'] 'h' (by decide)

/-- C4 counterexample: the line `"#  "` (one hash, two spaces) is matched by
the heading detector although no non-whitespace character follows the hash
run, refuting the claimed "at least one non-whitespace character afterward"
condition. -/
theorem c4_counterexample :
    headingCaptures ('#' :: ' ' :: ' ' :: []) = some (['#'], [' ']) ∧
      ∀ c ∈ (' ' :: ' ' :: [] : RStr), rustIsWhitespace c = true := by decide

/-- C7 counterexample: for the line `"# a "` the captured heading text is
`"a "` with its trailing space kept, not the trimmed `"a"` the claim
asserts. -/
theorem c7_counterexample :
    headingCaptures ('#' :: ' ' :: 'a' :: ' ' :: []) =
      some (['#'], ['a', ' ']) ∧ (['a', ' '] : RStr) ≠ ['a'] := by decide

/-- Captures computation for a maximally-decomposed heading line: hashes,
then a nonempty all-whitespace separator, then a remainder that starts with a
non-whitespace character and contains no newline. -/
theorem headingCaptures_decomp (k : ℕ) (ws rest : RStr)
    (hk1 : 1 ≤ k) (hk6 : k ≤ 6) (hws : ws ≠ [])
    (hall : ∀ c ∈ ws, rustIsWhitespace c = true)
    (hrest : rest ≠ [])
    (hhead : ∀ c, rest.head? = some c → rustIsWhitespace c = false)
    (hnl : '\n' ∉ rest) :
    headingCaptures (List.replicate k '#' ++ (ws ++ rest)) =
      some (List.replicate k '#', rest) := by
  obtain ⟨w, ws', rfl⟩ : ∃ w ws', ws = w :: ws' := by
    cases ws with
    | nil => exact absurd rfl hws
    | cons w ws' => exact ⟨w, ws', rfl⟩
  obtain ⟨r, rest', rfl⟩ : ∃ r rest', rest = r :: rest' := by
    cases rest with
    | nil => exact absurd rfl hrest
    | cons r rest' => exact ⟨r, rest', rfl⟩
  have factRep : ∀ c ∈ List.replicate k '#', isHash c = true := by
    intro c hc
    rw [List.eq_of_mem_replicate hc]
    decide
  have hw : rustIsWhitespace w = true := hall w (List.mem_cons_self _ _)
  have hwh : ¬ (isHash w = true) := by
    simp only [isHash, decide_eq_true_eq]
    intro hcon
    rw [hcon] at hw
    exact absurd hw (by decide)
  have hrh : ¬ (rustIsWhitespace r = true) := by
    have := hhead r rfl
    simp [this]
  have htw : (List.replicate k '#' ++ ((w :: ws') ++ (r :: rest'))).takeWhile
      isHash = List.replicate k '#' := by
    rw [takeWhile_append_of_all _ factRep, List.cons_append,
      List.takeWhile_cons_of_neg hwh, List.append_nil]
  have hdw : (List.replicate k '#' ++ ((w :: ws') ++ (r :: rest'))).dropWhile
      isHash = (w :: ws') ++ (r :: rest') := by
    rw [dropWhile_append_of_all _ factRep, List.cons_append,
      List.dropWhile_cons_of_neg hwh]
  have htw2 : ((w :: ws') ++ (r :: rest')).takeWhile rustIsWhitespace = w :: ws' := by
    rw [takeWhile_append_of_all _ hall, List.takeWhile_cons_of_neg hrh, List.append_nil]
  have hdw2 : ((w :: ws') ++ (r :: rest')).dropWhile rustIsWhitespace = r :: rest' := by
    rw [dropWhile_append_of_all _ hall, List.dropWhile_cons_of_neg hrh]
  simp only [headingCaptures, htw, hdw, htw2, hdw2, List.length_replicate]
  rw [if_pos ⟨hk1, hk6⟩, if_neg (List.cons_ne_nil w ws'),
    if_neg (List.cons_ne_nil r rest'), if_neg hnl]

/-- Captures computation for the degenerate heading line consisting of
hashes followed only by two or more whitespace characters (none a newline):
the engine backtracks `\s+` by one character, so the text capture is the
line's final whitespace character. -/
theorem headingCaptures_ws_only (k : ℕ) (ws : RStr) (c : Char)
    (hk1 : 1 ≤ k) (hk6 : k ≤ 6)
    (hall : ∀ d ∈ ws, rustIsWhitespace d = true)
    (hlen : 2 ≤ ws.length)
    (hgl : ws.getLast? = some c) (hcn : ¬ c = '\n') :
    headingCaptures (List.replicate k '#' ++ ws) =
      some (List.replicate k '#', [c]) := by
  obtain ⟨w, ws', rfl⟩ : ∃ w ws', ws = w :: ws' := by
    cases ws with
    | nil => simp at hlen
    | cons w ws' => exact ⟨w, ws', rfl⟩
  have factRep : ∀ d ∈ List.replicate k '#', isHash d = true := by
    intro d hd
    rw [List.eq_of_mem_replicate hd]
    decide
  have hw : rustIsWhitespace w = true := hall w (List.mem_cons_self _ _)
  have hwh : ¬ (isHash w = true) := by
    simp only [isHash, decide_eq_true_eq]
    intro hcon
    rw [hcon] at hw
    exact absurd hw (by decide)
  have htw : (List.replicate k '#' ++ (w :: ws')).takeWhile isHash =
      List.replicate k '#' := by
    rw [takeWhile_append_of_all _ factRep, List.takeWhile_cons_of_neg hwh,
      List.append_nil]
  have hdw : (List.replicate k '#' ++ (w :: ws')).dropWhile isHash = w :: ws' := by
    rw [dropWhile_append_of_all _ factRep, List.dropWhile_cons_of_neg hwh]
  have htw2 : (w :: ws').takeWhile rustIsWhitespace = w :: ws' :=
    takeWhile_eq_self_of_all hall
  have hdw2 : (w :: ws').dropWhile rustIsWhitespace = [] :=
    dropWhile_eq_nil_of_all hall
  simp only [headingCaptures, htw, hdw, htw2, hdw2, List.length_replicate]
  rw [if_pos ⟨hk1, hk6⟩, if_neg (List.cons_ne_nil w ws'), if_pos trivial, hgl]
  show (if 2 ≤ (w :: ws').length ∧ ¬ c = '\n' then
      some (List.replicate k '#', [c]) else none) = some (List.replicate k '#', [c])
  rw [if_pos ⟨hlen, hcn⟩]

/-- C4 (amended): the heading detector matches a (newline-free) line if and
only if the line starts with 1–6 `#` characters followed by at least one
whitespace character and at least one further character (which may itself be
whitespace — "at least one non-whitespace character afterward" is NOT
required); when a non-whitespace character does follow the separating
whitespace, the detector yields the `#` run and the full remaining text after
the maximal whitespace run; in the degenerate case of hashes followed only by
two or more whitespace characters, it yields the `#` run and, as the text
capture, the line's final whitespace character. -/
theorem c4_heading_match_charac (line : RStr) (hnl : '\n' ∉ line) :
    ((headingCaptures line).isSome = true ↔
      ∃ k ws rest, line = List.replicate k '#' ++ (ws ++ rest) ∧
        1 ≤ k ∧ k ≤ 6 ∧ ws ≠ [] ∧ (∀ c ∈ ws, rustIsWhitespace c = true) ∧
        2 ≤ ws.length + rest.length) ∧
    (∀ k ws rest, line = List.replicate k '#' ++ (ws ++ rest) →
      1 ≤ k → k ≤ 6 → ws ≠ [] → (∀ c ∈ ws, rustIsWhitespace c = true) →
      rest ≠ [] → (∀ c, rest.head? = some c → rustIsWhitespace c = false) →
      headingCaptures line = some (List.replicate k '#', rest)) ∧
    (∀ k ws c, line = List.replicate k '#' ++ ws →
      1 ≤ k → k ≤ 6 → (∀ d ∈ ws, rustIsWhitespace d = true) →
      2 ≤ ws.length → ws.getLast? = some c →
      headingCaptures line = some (List.replicate k '#', [c])) := by
  refine ⟨?_, ?_, ?_⟩
  · constructor
    · intro hs
      have hah : line = line.takeWhile isHash ++
          line.dropWhile isHash :=
        (List.takeWhile_append_dropWhile _ _).symm
      have hwsrr : line.dropWhile isHash =
          (line.dropWhile isHash).takeWhile rustIsWhitespace ++
            (line.dropWhile isHash).dropWhile rustIsWhitespace :=
        (List.takeWhile_append_dropWhile _ _).symm
      have htwrep : line.takeWhile isHash =
          List.replicate (line.takeWhile isHash).length '#' :=
        List.eq_replicate_iff.mpr
          ⟨rfl, fun b hb => isHash_eq (List.mem_takeWhile_imp hb)⟩
      simp only [headingCaptures] at hs
      split at hs
      case isFalse => simp at hs
      case isTrue h1 =>
        split at hs
        case isTrue h2 => simp at hs
        case isFalse h2 =>
          split at hs
          case isTrue h3 =>
            split at hs
            case h_2 => simp at hs
            case h_1 c heq =>
              split at hs
              case isFalse => simp at hs
              case isTrue h4 =>
                refine ⟨(line.takeWhile isHash).length,
                  (line.dropWhile isHash).takeWhile rustIsWhitespace,
                  [], ?_, h1.1, h1.2, h2,
                  fun c hc => List.mem_takeWhile_imp hc, by simpa using h4.1⟩
                rw [List.append_nil, ← htwrep]
                rw [hwsrr, h3, List.append_nil] at hah
                exact hah
          case isFalse h3 =>
            split at hs
            case isTrue => simp at hs
            case isFalse h4 =>
              refine ⟨(line.takeWhile isHash).length,
                (line.dropWhile isHash).takeWhile rustIsWhitespace,
                (line.dropWhile isHash).dropWhile rustIsWhitespace,
                ?_, h1.1, h1.2, h2,
                fun c hc => List.mem_takeWhile_imp hc, ?_⟩
              · rw [← htwrep, ← hwsrr]
                exact hah
              · have l1 : 0 < ((line.dropWhile isHash).takeWhile
                    rustIsWhitespace).length := List.length_pos.mpr h2
                have l2 : 0 < ((line.dropWhile isHash).dropWhile
                    rustIsWhitespace).length := List.length_pos.mpr h3
                omega
    · rintro ⟨k, ws, rest, hline, hk1, hk6, hws, hall, hsum⟩
      subst hline
      obtain ⟨w, ws', rfl⟩ : ∃ w ws', ws = w :: ws' := by
        cases ws with
        | nil => exact absurd rfl hws
        | cons w ws' => exact ⟨w, ws', rfl⟩
      have factRep : ∀ c ∈ List.replicate k '#', isHash c = true := by
        intro c hc
        rw [List.eq_of_mem_replicate hc]
        decide
      have hw : rustIsWhitespace w = true := hall w (List.mem_cons_self _ _)
      have hwh : ¬ (isHash w = true) := by
        simp only [isHash, decide_eq_true_eq]
        intro hcon
        rw [hcon] at hw
        exact absurd hw (by decide)
      have htw : (List.replicate k '#' ++ ((w :: ws') ++ rest)).takeWhile
          isHash = List.replicate k '#' := by
        rw [takeWhile_append_of_all _ factRep, List.cons_append,
          List.takeWhile_cons_of_neg hwh, List.append_nil]
      have hdw : (List.replicate k '#' ++ ((w :: ws') ++ rest)).dropWhile
          isHash = (w :: ws') ++ rest := by
        rw [dropWhile_append_of_all _ factRep, List.cons_append,
          List.dropWhile_cons_of_neg hwh]
      have htw2 : ((w :: ws') ++ rest).takeWhile rustIsWhitespace =
          (w :: ws') ++ rest.takeWhile rustIsWhitespace :=
        takeWhile_append_of_all rest hall
      have hdw2 : ((w :: ws') ++ rest).dropWhile rustIsWhitespace =
          rest.dropWhile rustIsWhitespace :=
        dropWhile_append_of_all rest hall
      simp only [headingCaptures, htw, hdw, htw2, hdw2, List.length_replicate]
      rw [if_pos ⟨hk1, hk6⟩,
        if_neg (show ¬ ((w :: ws') ++ rest.takeWhile rustIsWhitespace = []) by simp)]
      by_cases hrr : rest.dropWhile rustIsWhitespace = []
      · have hrtw : rest.takeWhile rustIsWhitespace = rest := by
          have h5 := List.takeWhile_append_dropWhile rustIsWhitespace rest
          rw [hrr, List.append_nil] at h5
          exact h5
        rw [if_pos hrr]
        have hwsne : (w :: ws') ++ rest.takeWhile rustIsWhitespace ≠ [] := by simp
        cases hgl : ((w :: ws') ++ rest.takeWhile rustIsWhitespace).getLast? with
        | none => exact absurd (List.getLast?_eq_none_iff.mp hgl) hwsne
        | some c =>
          have hcmem : c ∈ (w :: ws') ++ rest.takeWhile rustIsWhitespace :=
            List.mem_of_mem_getLast? (by rw [hgl]; rfl)
          have hcline : c ∈ List.replicate k '#' ++ ((w :: ws') ++ rest) := by
            rw [hrtw] at hcmem
            exact List.mem_append_right _ hcmem
          have hcn : ¬ c = '\n' := fun hcon => hnl (hcon ▸ hcline)
          have hlen : 2 ≤ ((w :: ws') ++ rest.takeWhile rustIsWhitespace).length := by
            rw [List.length_append, hrtw]
            simpa using hsum
          simp only [List.length_append, List.length_cons] at hlen
          simp [hcn]
          omega
      · rw [if_neg hrr]
        have hnlrr : ¬ ('\n' ∈ rest.dropWhile rustIsWhitespace) := by
          intro hmem
          apply hnl
          have h6 : '\n' ∈ rest := (List.dropWhile_sublist rustIsWhitespace).mem hmem
          exact List.mem_append_right _ (List.mem_append_right _ h6)
        rw [if_neg hnlrr]
        rfl
  · intro k ws rest hline hk1 hk6 hws hall hrest hhead
    have hnlrest : '\n' ∉ rest := by
      intro hmem
      apply hnl
      rw [hline]
      exact List.mem_append_right _ (List.mem_append_right _ hmem)
    rw [hline]
    exact headingCaptures_decomp k ws rest hk1 hk6 hws hall hrest hhead hnlrest
  · intro k ws c hline hk1 hk6 hall hlen hgl
    have hcn : ¬ c = '\n' := by
      intro hcon
      apply hnl
      rw [hline]
      exact List.mem_append_right _
        (hcon ▸ List.mem_of_mem_getLast? (show c ∈ ws.getLast? from hgl ▸ rfl))
    rw [hline]
    exact headingCaptures_ws_only k ws c hk1 hk6 hall hlen hgl hcn

theorem c4_witness :
    (headingCaptures "# Hello".toList).isSome = true ∧
      headingCaptures ('#' :: ' ' :: ' ' :: []) = some (List.replicate 1 '#', [' ']) :=
  ⟨((c4_heading_match_charac "# Hello".toList (by decide)).1).mpr
      ⟨1, [' '], "Hello".toList, by decide⟩,
    (c4_heading_match_charac ('#' :: ' ' :: ' ' :: []) (by decide)).2.2
      1 [' ', ' '] ' ' (by decide) (by decide) (by decide) (by decide)
      (by decide) (by decide)⟩

/-- C7 (amended): on a match, the captured heading text is a nonempty suffix
of the line — the trailing content with the leading separator whitespace
consumed but trailing whitespace NOT trimmed; in particular the line's final
character equals the captured text's final character. -/
theorem c7_captured_text_untrimmed (line hashes text : RStr)
    (h : headingCaptures line = some (hashes, text)) :
    text ≠ [] ∧ text <:+ line ∧ line.getLast? = text.getLast? := by
  have key : text ≠ [] ∧ text <:+ line := by
    simp only [headingCaptures] at h
    split at h
    case isFalse => simp at h
    case isTrue h1 =>
      split at h
      case isTrue h2 => simp at h
      case isFalse h2 =>
        split at h
        case isTrue h3 =>
          split at h
          case h_2 => simp at h
          case h_1 c heq =>
            split at h
            case isFalse => simp at h
            case isTrue h4 =>
              have htext : text = [c] := by
                have h5 := h
                simp only [Option.some.injEq, Prod.mk.injEq] at h5
                exact h5.2.symm
              subst htext
              refine ⟨List.cons_ne_nil c [], ?_⟩
              have hsuf1 : [c] <:+ (line.dropWhile isHash).takeWhile
                  rustIsWhitespace := by
                refine ⟨((line.dropWhile isHash).takeWhile
                  rustIsWhitespace).dropLast, ?_⟩
                exact List.dropLast_append_getLast? c (by rw [heq]; rfl)
              have hwseq : (line.dropWhile isHash).takeWhile
                  rustIsWhitespace = line.dropWhile isHash := by
                have h5 := List.takeWhile_append_dropWhile rustIsWhitespace
                  (line.dropWhile isHash)
                rw [h3, List.append_nil] at h5
                exact h5
              rw [hwseq] at hsuf1
              exact hsuf1.trans (List.dropWhile_suffix _)
        case isFalse h3 =>
          split at h
          case isTrue => simp at h
          case isFalse h4 =>
            have htext : text = (line.dropWhile isHash).dropWhile
                rustIsWhitespace := by
              have h5 := h
              simp only [Option.some.injEq, Prod.mk.injEq] at h5
              exact h5.2.symm
            subst htext
            exact ⟨h3, (List.dropWhile_suffix _).trans (List.dropWhile_suffix _)⟩
  obtain ⟨hne, hsuf⟩ := key
  refine ⟨hne, hsuf, ?_⟩
  obtain ⟨u, hu⟩ := hsuf
  rw [← hu, List.getLast?_append_of_ne_nil _ hne]

theorem c7_witness :
    ("Hi".toList ≠ []) ∧ "Hi".toList <:+ "# Hi".toList ∧
      ("# Hi".toList).getLast? = ("Hi".toList).getLast? :=
  c7_captured_text_untrimmed "# Hi".toList "#".toList "Hi".toList (by decide)

/-- C10 counterexample: the document `"a\n\n"` ends with a newline, yet the
transform's output `"a\n"` also ends with a newline, refuting the claim that
the output never ends with a newline for such inputs. -/
theorem c10_counterexample :
    ("a\n\n".toList).getLast? = some '\n' ∧
      (process_markdown_headings "a\n\n".toList).getLast? = some '\n' := by
  decide

/-- C8: consecutive transformed lines are rejoined with exactly one `'\n'`,
and a `"\r\n"` line ending in the input contributes no `'\r'` to the output:
the line before it is emitted (rewritten) with its `'\r'` stripped, followed
by a single `'\n'`. -/
theorem c8_crlf_normalized (u v : RStr) (hu : '\n' ∉ u) (hv : v ≠ []) :
    process_markdown_headings (u ++ '\r' :: '\n' :: v) =
      processLine u ++ '\n' :: process_markdown_headings v ∧
      process_markdown_headings (u ++ ['\r', '\n']) = processLine u := by
  have hu' : '\n' ∉ u ++ ['\r'] := by
    intro hmem
    rcases List.mem_append.mp hmem with hm | hm
    · exact hu hm
    · simp at hm
  constructor
  · have hsp : splitSep '\n' (u ++ '\r' :: '\n' :: v) =
        (u ++ ['\r']) :: splitSep '\n' v := by
      have h3 := splitSep_append_cons hu' v
      rwa [List.append_assoc, List.singleton_append] at h3
    cases hs : splitSep '\n' v with
    | nil => exact absurd hs (splitSep_ne_nil '\n' v)
    | cons s0 srest =>
      have hru : rustLines (u ++ '\r' :: '\n' :: v) = u :: rustLines v := by
        rw [rustLines, hsp, hs, rustLinesAux, stripCR_concat_cr, rustLines, hs]
      have hmv : rustLines v ≠ [] := rustLines_ne_nil hv
      simp only [process_markdown_headings]
      rw [hru, List.map_cons]
      cases hm : (rustLines v).map processLine with
      | nil => exact absurd (List.map_eq_nil_iff.mp hm) hmv
      | cons m ms => exact joinSep_cons_cons '\n' (processLine u) m ms
  · have hsp2 : splitSep '\n' (u ++ ['\r', '\n']) = (u ++ ['\r']) :: [[]] := by
      have h3 := splitSep_append_cons hu' []
      rwa [List.append_assoc, List.singleton_append] at h3
    simp [process_markdown_headings, rustLines, hsp2, rustLinesAux,
      stripCR_concat_cr, joinSep]

theorem c8_witness :
    process_markdown_headings (['x'] ++ '\r' :: '\n' :: ['y']) =
      processLine ['x'] ++ '\n' :: process_markdown_headings ['y'] :=
  (c8_crlf_normalized ['x'] ['y'] (by decide) (by decide)).1

/-- C10 (amended): exactly one trailing newline is dropped: appending a
single final `'\n'` to a document that does not already end in `'\n'` (or in
a bare `'\r'`) leaves the output unchanged. The output can nevertheless end
with a newline when the input's last line before the final terminator is
itself empty (e.g. an input ending in `"\n\n"`), so the original claim's
"never ends with a newline" is too strong. -/
theorem c10_trailing_newline_dropped (s : RStr)
    (h1 : s.getLast? ≠ some '\n') (h2 : s.getLast? ≠ some '\r') :
    process_markdown_headings (s ++ ['\n']) = process_markdown_headings s := by
  rcases List.eq_nil_or_concat s with rfl | ⟨s', x, hs⟩
  · decide
  · rw [List.concat_eq_append] at hs
    subst hs
    have hx1 : ¬ x = '\n' := by
      intro hcon
      exact h1 (by rw [List.getLast?_concat, hcon])
    have hx2 : ¬ x = '\r' := by
      intro hcon
      exact h2 (by rw [List.getLast?_concat, hcon])
    obtain ⟨I, last0, hsp1, hsp2⟩ := splitSep_append_single hx1 s'
    have hl1 : rustLines ((s' ++ [x]) ++ ['\n']) =
        (I ++ [last0 ++ [x]]).map stripCR := by
      rw [rustLines, splitSep_append_sep, hsp2, rustLinesAux_append_nil]
    have hl2 : rustLines (s' ++ [x]) = (I ++ [last0 ++ [x]]).map stripCR := by
      rw [rustLines, hsp2]
      exact rustLinesAux_of_getLast (List.getLast?_concat _) (by simp)
        (stripCR_of_getLast_ne (by rw [List.getLast?_concat]; simp [hx2]))
    rw [process_markdown_headings, process_markdown_headings, hl1, hl2]

theorem c10_witness :
    process_markdown_headings ("# Hi".toList ++ ['\n']) =
      process_markdown_headings "# Hi".toList :=
  c10_trailing_newline_dropped _ (by decide) (by decide)

end LinkGen
